import Mathlib

/-!
Verification of the `sd` stream-editor core (two replacement engines, flag
parsing, replacement-template validation, and atomic file write-back).

The Rust sources are shallowly embedded: byte/str buffers become `List Char`,
the match iterators of the two regex backends become explicit lists of match
spans (`List (Nat × Nat)` for the byte engine; `List (Option (Nat × Nat))`
for the backtracking engine, whose iterator can yield errors, modelled as
`none`), and the file system becomes a map from paths to file data.
-/

/-! ## Buffer slices and the color markers

`ansi_term::Color::Blue.prefix()` renders as the ANSI escape `ESC [ 3 4 m`
and `suffix()` as `ESC [ 0 m`. -/

deriving instance DecidableEq for Except

/-- `haystack[a..b]`: the slice of `l` from index `a` (inclusive) to `b`
(exclusive). -/
def bufSlice (l : List Char) (a b : Nat) : List Char := (l.take b).drop a

/-- Bytes appended by `ansi_term::Color::Blue.prefix()`. -/
def colorPre : List Char := ['\x1b', '[', '3', '4', 'm']

/-- Bytes appended by `ansi_term::Color::Blue.suffix()`. -/
def colorSuf : List Char := ['\x1b', '[', '0', 'm']

/-! ## The replacement loop (`RegexReplacer::replacen`, `FancyReplacer::replacen`)

Both engines run the same loop: per match, unless `only_matched`, append the
unmatched span since the previous match end and (when colorizing) the color
prefix; append the expanded replacement; unless `only_matched`, when
colorizing append the color suffix; update `last_match`; break once
`limit > 0 && i >= limit - 1`.  After the loop, unless `only_matched`,
append the unconsumed tail.  The expansion of the replacement template
against a match's captures is abstracted as a function `rep` from the match
span to the appended text (`replace_append`); for a literal-mode engine
(`NoExpand`) and for templates without capture references it is a constant
function. -/

/-- The bytes appended for one match `m` given the previous match end
`lastM` (the body of one loop iteration of `replacen`). -/
def chunkOf (haystack : List Char) (uc om : Bool) (rep : Nat × Nat → List Char)
    (lastM : Nat) (m : Nat × Nat) : List Char :=
  (if om then [] else bufSlice haystack lastM m.1 ++ (if uc then colorPre else []))
    ++ rep m
    ++ (if !om && uc then colorSuf else [])

/-- The loop of `RegexReplacer::replacen` over the remaining matches, with
current enumeration index `i` and previous match end `lastM`.  Returns the
accumulated output and the final `last_match`. -/
def regexLoop (limit : Nat) (h : List Char) (uc : Bool)
    (rep : Nat × Nat → List Char) (om : Bool) :
    List (Nat × Nat) → Nat → Nat → List Char × Nat
  | [], _, lastM => ([], lastM)
  | m :: rest, i, lastM =>
    let c := chunkOf h uc om rep lastM m
    if 0 < limit ∧ limit - 1 ≤ i then (c, m.2)
    else
      let r := regexLoop limit h uc rep om rest (i + 1) m.2
      (c ++ r.1, r.2)

/-- `RegexReplacer::replacen`: `regexMatches` is the list of match spans the
compiled regex's `captures_iter` yields on `h` (start inclusive, end
exclusive, left-to-right, non-overlapping).  Returns `none` exactly when the
iterator is empty (the `peek()?`). -/
def RegexReplacer.replacen (regexMatches : List (Nat × Nat)) (limit : Nat)
    (h : List Char) (uc : Bool) (rep : Nat × Nat → List Char) (om : Bool) :
    Option (List Char) :=
  match regexMatches with
  | [] => none
  | m :: rest =>
    let r := regexLoop limit h uc rep om (m :: rest) 0 0
    some (r.1 ++ if om then [] else h.drop r.2)

/-- The loop of `FancyReplacer::replacen`: the iterator yields
`Result<Captures>` items; an `Err` item (modelled `none`) aborts the whole
call via `cap.ok()?`. -/
def fancyLoop (limit : Nat) (h : List Char) (uc : Bool)
    (rep : Nat × Nat → List Char) (om : Bool) :
    List (Option (Nat × Nat)) → Nat → Nat → Option (List Char × Nat)
  | [], _, lastM => some ([], lastM)
  | none :: _, _, _ => none
  | some m :: rest, i, lastM =>
    let c := chunkOf h uc om rep lastM m
    if 0 < limit ∧ limit - 1 ≤ i then some (c, m.2)
    else (fancyLoop limit h uc rep om rest (i + 1) m.2).map
      (fun r => (c ++ r.1, r.2))

/-- `FancyReplacer::replacen`: like the byte engine, but each yielded item
may be an error (`none`), which aborts the call.  The initial `peek()?` only
tests that the iterator is non-empty; it does not unwrap the first item. -/
def FancyReplacer.replacen (fancyMatches : List (Option (Nat × Nat)))
    (limit : Nat) (h : List Char) (uc : Bool) (rep : Nat × Nat → List Char)
    (om : Bool) : Option (List Char) :=
  match fancyMatches with
  | [] => none
  | _ :: _ =>
    (fancyLoop limit h uc rep om fancyMatches 0 0).map
      (fun r => r.1 ++ if om then [] else h.drop r.2)

/-! ## Pattern escaping, template unescaping -/

/-- The characters `regex::escape` / `fancy_regex::escape` put a backslash
before (the regex meta-characters). -/
def metaChars : List Char :=
  ['\\', '.', '+', '*', '?', '(', ')', '|', '[', ']', '{', '}', '^', '$',
   '#', '&', '-', '~']

/-- `regex::escape` / `fancy_regex::escape`: backslash-escape every
meta-character so the escaped pattern matches exactly the verbatim text. -/
def regexEscape (s : List Char) : List Char :=
  s.foldr (fun c acc => (if c ∈ metaChars then ['\\', c] else [c]) ++ acc) []

/-- The `unescape` crate's `unescape`: decode backslash escape sequences;
`none` on an invalid sequence.  (The `\u{...}` form is not modelled; no
verified claim exercises it.) -/
def unescapeChars : List Char → Option (List Char)
  | [] => some []
  | '\\' :: c :: rest =>
    (match c with
      | 'n' => some '\n'
      | 't' => some '\t'
      | 'r' => some '\r'
      | '0' => some (Char.ofNat 0)
      | '\\' => some '\\'
      | '\'' => some '\''
      | '"' => some '"'
      | 'b' => some (Char.ofNat 8)
      | 'f' => some (Char.ofNat 12)
      | _ => none).bind
      (fun ch => (unescapeChars rest).map (fun l => ch :: l))
  | ['\\'] => none
  | c :: rest => (unescapeChars rest).map (fun l => c :: l)

/-- `unescape::unescape(&s).unwrap_or(s)`: failure to unescape falls back to
the raw text unchanged. -/
def unescapeOr (s : List Char) : List Char := (unescapeChars s).getD s

/-! ## The replacement-template validator

`validate_replace` lives in `src/replacer/validate.rs`, which is not part of
the sources at hand; it is modelled from the specification. -/

/-- Given the characters following at least one digit after a `$`: skip the
remaining digits; the template is ambiguous when the first non-digit is
alphabetic or an underscore. -/
def followsDigits : List Char → Bool
  | [] => false
  | c :: rest => if c.isDigit then followsDigits rest else (c.isAlpha || c == '_')

/-- Given the characters following a `$`: the reference is ambiguous when
one or more digits are immediately followed by an alphabetic or underscore
character. -/
def badAtDollar : List Char → Bool
  | [] => false
  | c :: rest => c.isDigit && followsDigits rest

/-- Scan a template for an ambiguous capture reference: a `$`, then one or
more digits, then immediately an alphabetic or underscore character. -/
def hasAmbiguousCapture : List Char → Bool
  | [] => false
  | c :: rest => (c == '$' && badAtDollar rest) || hasAmbiguousCapture rest

/-- Modelled from the spec: `validate_replace` (from `src/replacer/validate.rs`,
absent from the sources at hand) fails with `InvalidReplaceCapture` exactly
when the template contains `$` followed by one or more digits then
immediately an alphabetic or underscore character with no separator; any
other `$` usage is accepted. -/
def validate_replace (s : List Char) : Except Unit Unit :=
  if hasAmbiguousCapture s then Except.error () else Except.ok ()

/-- The declarative reading of the validator's rejection condition: the
template decomposes as `l1 ++ '$' :: ds ++ c :: l2` with `ds` a non-empty
run of digits and `c` alphabetic or an underscore. -/
def AmbiguousCaptureSpec (s : List Char) : Prop :=
  ∃ l1 ds c l2, s = l1 ++ '$' :: (ds ++ c :: l2) ∧ ds ≠ [] ∧
    (∀ d ∈ ds, d.isDigit = true) ∧ (c.isAlpha = true ∨ c = '_')

/-! ## Flag parsing and the regex builders -/

/-- The builder state of `regex::bytes::RegexBuilder`: the pattern text and
the three toggles the code touches.  Fresh builders default all toggles to
`false`. -/
structure RegexBuild where
  pattern : List Char
  caseInsensitive : Bool
  multiLine : Bool
  dotMatchesNewLine : Bool
deriving DecidableEq

/-- Wrap a pattern in word-boundary anchors: the `format!("\\b{}\\b", look_for)`
of the `w` flag. -/
def wrapWord (lf : List Char) : List Char := ('\\' :: 'b' :: lf) ++ ['\\', 'b']

/-- The fresh builder the `w` flag substitutes for the current one
(`RegexBuilder::new` on the wrapped pattern: all toggles at their defaults). -/
def regexWFresh (lf : List Char) : RegexBuild :=
  { pattern := wrapWord lf, caseInsensitive := false, multiLine := false,
    dotMatchesNewLine := false }

/-- One step of `RegexReplacer::new`'s flag loop.  `lf` is the (possibly
escaped) pattern and `fs` the whole flags string — the `s` arm consults
`flags.contains('m')` on the whole string. -/
def regexFlagStep (lf fs : List Char) (b : RegexBuild) (c : Char) : RegexBuild :=
  match c with
  | 'c' => { b with caseInsensitive := false }
  | 'i' => { b with caseInsensitive := true }
  | 'e' => { b with multiLine := false }
  | 's' =>
    let b := if 'm' ∈ fs then b else { b with multiLine := false }
    { b with dotMatchesNewLine := true }
  | 'w' => regexWFresh lf
  | _ => b

/-- `RegexReplacer::new`'s builder configuration: start from the pattern with
`multi_line(true)`, then fold the flag characters. -/
def regexBuildFlags (lf : List Char) (flags : Option (List Char)) : RegexBuild :=
  let init : RegexBuild :=
    { pattern := lf, caseInsensitive := false, multiLine := true,
      dotMatchesNewLine := false }
  match flags with
  | none => init
  | some fs => fs.foldl (regexFlagStep lf fs) init

/-- The builder state of `fancy_regex::RegexBuilder` (no `multi_line` call
in `FancyReplacer::new`; its flag loop only handles `c`, `i`, `w`). -/
structure FancyBuild where
  pattern : List Char
  caseInsensitive : Bool
deriving DecidableEq

/-- The fresh builder the `w` flag substitutes in `FancyReplacer::new`. -/
def fancyWFresh (lf : List Char) : FancyBuild :=
  { pattern := wrapWord lf, caseInsensitive := false }

/-- One step of `FancyReplacer::new`'s flag loop. -/
def fancyFlagStep (lf : List Char) (b : FancyBuild) (c : Char) : FancyBuild :=
  match c with
  | 'c' => { b with caseInsensitive := false }
  | 'i' => { b with caseInsensitive := true }
  | 'w' => fancyWFresh lf
  | _ => b

/-- `FancyReplacer::new`'s builder configuration. -/
def fancyBuildFlags (lf : List Char) (flags : Option (List Char)) : FancyBuild :=
  let init : FancyBuild := { pattern := lf, caseInsensitive := false }
  match flags with
  | none => init
  | some fs => fs.foldl (fancyFlagStep lf) init

/-! ## Engine construction -/

/-- The construction error relevant here (`Error::InvalidReplaceCapture`).
Pattern-compilation failures of the external regex backends are not
modelled. -/
inductive SdError where
  | invalidCapture
deriving DecidableEq

/-- `RegexReplacer` (the Constrained, byte-oriented engine): the configured
builder together with the stored replacement, literal flag and ceiling. -/
structure RegexReplacer where
  regex : RegexBuild
  replace_with : List Char
  is_literal : Bool
  replacements : Nat
deriving DecidableEq

/-- `RegexReplacer::new`: literal mode escapes the pattern and keeps the
replacement as-is; otherwise the template is validated (before any pattern
compilation) and unescaped with raw-text fallback. -/
def RegexReplacer.new (look_for replace_with : List Char) (lit : Bool)
    (flags : Option (List Char)) (replacements : Nat) :
    Except SdError RegexReplacer :=
  if lit then
    Except.ok
      { regex := regexBuildFlags (regexEscape look_for) flags,
        replace_with := replace_with, is_literal := true, replacements }
  else if hasAmbiguousCapture replace_with then Except.error SdError.invalidCapture
  else
    Except.ok
      { regex := regexBuildFlags look_for flags,
        replace_with := unescapeOr replace_with, is_literal := false,
        replacements }

/-- `FancyReplacer` (the Expressive, text-oriented engine). -/
structure FancyReplacer where
  regex : FancyBuild
  replace_with : List Char
  is_literal : Bool
  replacements : Nat
deriving DecidableEq

/-- `FancyReplacer::new`: same shape as `RegexReplacer::new`. -/
def FancyReplacer.new (look_for replace_with : List Char) (lit : Bool)
    (flags : Option (List Char)) (replacements : Nat) :
    Except SdError FancyReplacer :=
  if lit then
    Except.ok
      { regex := fancyBuildFlags (regexEscape look_for) flags,
        replace_with := replace_with, is_literal := true, replacements }
  else if hasAmbiguousCapture replace_with then Except.error SdError.invalidCapture
  else
    Except.ok
      { regex := fancyBuildFlags look_for flags,
        replace_with := unescapeOr replace_with, is_literal := false,
        replacements }

/-! ## Match semantics for verbatim-text patterns

The compiled automata live in external crates; what the verified claims
exercise are patterns that denote a fixed verbatim text (either
meta-character-free, or escaped by literal mode).  For those,
`captures_iter` yields the successive leftmost non-overlapping occurrences
of the text, which `literalMatches` computes. -/

/-- Does the verbatim text `pat` occur in `s` at position `j`? -/
def matchAt (pat s : List Char) (j : Nat) : Bool := pat.isPrefixOf (s.drop j)

/-- The least position `≥ pos` at which `pat` occurs in `s`. -/
def findFrom (pat s : List Char) (pos : Nat) : Option Nat :=
  ((List.range (s.length + 1)).filter
    (fun j => decide (pos ≤ j) && matchAt pat s j)).head?

/-- Collect the successive leftmost non-overlapping occurrences of `pat`
starting at `pos`, with fuel bounding the recursion. -/
def literalMatchesAux (pat s : List Char) : Nat → Nat → List (Nat × Nat)
  | _, 0 => []
  | pos, fuel + 1 =>
    match findFrom pat s pos with
    | none => []
    | some j =>
      (j, j + pat.length) ::
        literalMatchesAux pat s (j + pat.length + (if pat.isEmpty then 1 else 0)) fuel

/-- All leftmost non-overlapping occurrences of the verbatim text `pat` in
`s`, as (start, end) spans. -/
def literalMatches (pat s : List Char) : List (Nat × Nat) :=
  literalMatchesAux pat s 0 (s.length + 1)

/-! ## End-to-end application for verbatim-text patterns

`RegexReplacer::replace` dispatches on `is_literal` between
`NoExpand(&self.replace_with)` and the expanding replacer `&*self.replace_with`;
for a literal engine, and for any template without a capture reference, both
append exactly `replace_with` per match, so the expansion function is the
constant `replace_with`.  (No verified claim interpolates captures.) -/

/-- Construct the byte engine with `flags = None` and apply it to `content`,
taking the match semantics of the (verbatim-text) pattern from
`literalMatches`. -/
def regexApplyPlain (pat rw : List Char) (lit : Bool) (ceiling : Nat)
    (content : List Char) (om uc : Bool) : Except SdError (Option (List Char)) :=
  (RegexReplacer.new pat rw lit none ceiling).map
    (fun r =>
      RegexReplacer.replacen (literalMatches pat content) r.replacements
        content uc (fun _ => r.replace_with) om)

/-- Construct the backtracking engine with `flags = None` and apply it; its
iterator yields each occurrence as a successful item. -/
def fancyApplyPlain (pat rw : List Char) (lit : Bool) (ceiling : Nat)
    (content : List Char) (om uc : Bool) : Except SdError (Option (List Char)) :=
  (FancyReplacer.new pat rw lit none ceiling).map
    (fun r =>
      FancyReplacer.replacen ((literalMatches pat content).map some)
        r.replacements content uc (fun _ => r.replace_with) om)


/-! ## WriteBack (`write_with_temp` in `src/main.rs`)

The file system is modelled as a map from (canonical) paths to file data;
`fs::canonicalize` on an existing path is the identity on this
representation and errors when the path is absent.  Memory-mapped writing
and `flush_async` have no observable effect beyond the written bytes. -/

/-- The observable data of one file: its content bytes and its permission
bits. -/
structure FileData where
  content : List Nat
  perms : Nat
deriving DecidableEq

/-- A file-system state: each path holds at most one file. -/
def FsState : Type := String → Option FileData

/-- Create or overwrite the file at `p`. -/
def fsSet (fs : FsState) (p : String) (d : FileData) : FsState :=
  fun q => if q = p then some d else fs q

/-- Atomically rename the file at `src` over `dst` (`NamedTempFile::persist`):
`dst` receives `src`'s data in one step and `src` disappears. -/
def fsRename (fs : FsState) (src dst : String) : FsState :=
  fun q => if q = src then none else if q = dst then fs src else fs q

/-- The successive file-system states `write_with_temp(path, data)` produces,
in order: create the temp file (`NamedTempFile::new_in`, with the temp
file's own fresh permissions `tmpPerms`); `set_len(data.len())`;
best-effort copy of the original permission bits; write the bytes through
the mapped view (skipped when `data` is empty); atomically rename the temp
file over `path`.  `none` when `fs::canonicalize(path)` fails (no such
file). -/
def writeWithTempStates (fs : FsState) (path tmpPath : String) (tmpPerms : Nat)
    (data : List Nat) : Option (List FsState) :=
  match fs path with
  | none => none
  | some orig =>
    let s1 := fsSet fs tmpPath { content := [], perms := tmpPerms }
    let s2 := fsSet s1 tmpPath
      { content := List.replicate data.length 0, perms := tmpPerms }
    let s3 := fsSet s2 tmpPath
      { content := List.replicate data.length 0, perms := orig.perms }
    let s4 := if data.isEmpty then s3
      else fsSet s3 tmpPath { content := data, perms := orig.perms }
    let s5 := fsRename s4 tmpPath path
    some [s1, s2, s3, s4, s5]

/-- `write_with_temp`: the final file-system state (the last state of the
trace). -/
def write_with_temp (fs : FsState) (path tmpPath : String) (tmpPerms : Nat)
    (data : List Nat) : Option FsState :=
  (writeWithTempStates fs path tmpPath tmpPerms data).map
    (fun l => l.getLastD fs)


/-! ## Loop lemmas -/

/-- With a positive remaining budget `k` and current index `i` (so the
ceiling is `i + k`), the bounded loop behaves like the unlimited loop on the
first `k` remaining matches. -/
lemma regexLoop_take (h : List Char) (uc : Bool) (rep : Nat × Nat → List Char)
    (om : Bool) :
    ∀ (rest : List (Nat × Nat)) (k i lastM : Nat), 0 < k →
      regexLoop (i + k) h uc rep om rest i lastM
        = regexLoop 0 h uc rep om (rest.take k) i lastM := by
  intro rest
  induction rest with
  | nil => intro k i lastM _; simp [regexLoop]
  | cons m rest ih =>
    intro k i lastM hk
    obtain ⟨k, rfl⟩ : ∃ j, k = j + 1 := ⟨k - 1, by omega⟩
    cases k with
    | zero =>
      simp only [List.take_succ_cons, List.take_zero, regexLoop]
      rw [if_pos (by omega), if_neg (by omega)]
      simp [regexLoop]
    | succ k =>
      simp only [List.take_succ_cons, regexLoop]
      rw [if_neg (by omega), if_neg (by omega)]
      have := ih (k + 1) (i + 1) m.2 (by omega)
      rw [show i + (k + 1 + 1) = i + 1 + (k + 1) by omega, this]

/-- The `fancy` analogue of `regexLoop_take`. -/
lemma fancyLoop_take (h : List Char) (uc : Bool) (rep : Nat × Nat → List Char)
    (om : Bool) :
    ∀ (rest : List (Option (Nat × Nat))) (k i lastM : Nat), 0 < k →
      fancyLoop (i + k) h uc rep om rest i lastM
        = fancyLoop 0 h uc rep om (rest.take k) i lastM := by
  intro rest
  induction rest with
  | nil => intro k i lastM _; simp [fancyLoop]
  | cons o rest ih =>
    intro k i lastM hk
    obtain ⟨k, rfl⟩ : ∃ j, k = j + 1 := ⟨k - 1, by omega⟩
    cases o with
    | none => simp [fancyLoop]
    | some m =>
      cases k with
      | zero =>
        simp only [List.take_succ_cons, List.take_zero, fancyLoop]
        rw [if_pos (by omega), if_neg (by omega)]
        simp [fancyLoop]
      | succ k =>
        simp only [List.take_succ_cons, fancyLoop]
        rw [if_neg (by omega), if_neg (by omega)]
        have := ih (k + 1) (i + 1) m.2 (by omega)
        rw [show i + (k + 1 + 1) = i + 1 + (k + 1) by omega, this]

/-- In only-matched mode the unlimited loop produces exactly the
concatenated replacement texts, in match order. -/
lemma regexLoop_only (h : List Char) (uc : Bool) (rep : Nat × Nat → List Char) :
    ∀ (rest : List (Nat × Nat)) (i lastM : Nat),
      (regexLoop 0 h uc rep true rest i lastM).1 = (rest.map rep).flatten := by
  intro rest
  induction rest with
  | nil => intro i lastM; simp [regexLoop]
  | cons m rest ih =>
    intro i lastM
    simp [regexLoop, chunkOf, ih]

/-- The `fancy` analogue of `regexLoop_only` on an error-free iterator. -/
lemma fancyLoop_only (h : List Char) (uc : Bool) (rep : Nat × Nat → List Char) :
    ∀ (rest : List (Nat × Nat)) (i lastM : Nat), ∃ e,
      fancyLoop 0 h uc rep true (rest.map some) i lastM
        = some ((rest.map rep).flatten, e) := by
  intro rest
  induction rest with
  | nil => intro i lastM; exact ⟨lastM, by simp [fancyLoop]⟩
  | cons m rest ih =>
    intro i lastM
    obtain ⟨e, he⟩ := ih (i + 1) m.2
    exact ⟨e, by simp [fancyLoop, chunkOf, he]⟩

/-- On an error-free iterator the `fancy` loop never aborts. -/
lemma fancyLoop_some (limit : Nat) (h : List Char) (uc : Bool)
    (rep : Nat × Nat → List Char) (om : Bool) :
    ∀ (l : List (Nat × Nat)) (i lastM : Nat),
      (fancyLoop limit h uc rep om (l.map some) i lastM).isSome = true := by
  intro l
  induction l with
  | nil => intro i lastM; simp [fancyLoop]
  | cons m l ih =>
    intro i lastM
    simp only [List.map_cons, fancyLoop]
    split
    · simp
    · simp [Option.isSome_map, ih (i + 1) m.2]

/-- An error item reached before the ceiling cuts iteration off aborts the
`fancy` loop. -/
lemma fancyLoop_err (limit : Nat) (h : List Char) (uc : Bool)
    (rep : Nat × Nat → List Char) (om : Bool) (post : List (Option (Nat × Nat))) :
    ∀ (pre : List (Option (Nat × Nat))) (i lastM : Nat),
      limit = 0 ∨ pre.length + i + 1 ≤ limit →
      fancyLoop limit h uc rep om (pre ++ none :: post) i lastM = none := by
  intro pre
  induction pre with
  | nil => intro i lastM _; simp [fancyLoop]
  | cons o pre ih =>
    intro i lastM hlim
    cases o with
    | none => simp [fancyLoop]
    | some m =>
      simp only [List.cons_append, fancyLoop]
      rw [if_neg (by
        rcases hlim with h0 | h0
        · omega
        · simp only [List.length_cons] at h0; omega)]
      simp only [List.append_eq]
      rw [ih (i + 1) m.2 (by
        rcases hlim with h0 | h0
        · exact Or.inl h0
        · refine Or.inr ?_
          simp only [List.length_cons] at h0; omega)]
      rfl

/-! ## Validator lemmas -/

/-- An alphabetic character or an underscore is not a digit. -/
lemma not_digit_of_ident (c : Char) (hc : c.isAlpha = true ∨ c = '_') :
    c.isDigit = false := by
  rcases hc with hc | rfl
  · simp only [Char.isAlpha, Char.isUpper, Char.isLower, Char.isDigit,
      Bool.or_eq_true, Bool.and_eq_true, decide_eq_true_eq, ge_iff_le,
      Bool.and_eq_false_iff, decide_eq_false_iff_not] at hc ⊢
    rcases hc with ⟨h1, h2⟩ | ⟨h1, h2⟩ <;> right <;> intro h <;>
      · have n1 : (65 : Nat) ≤ c.val.toNat ∨ (97 : Nat) ≤ c.val.toNat :=
          by first | exact Or.inl h1 | exact Or.inr h1
        have n2 : c.val.toNat ≤ (57 : Nat) := h
        omega
  · decide

/-- If the digit-skipping scan succeeds, the scanned characters decompose as
a (possibly empty) digit run followed by an alphabetic or underscore
character. -/
lemma followsDigits_sound :
    ∀ l, followsDigits l = true →
      ∃ ds c l2, l = ds ++ c :: l2 ∧ (∀ d ∈ ds, d.isDigit = true) ∧
        (c.isAlpha = true ∨ c = '_') := by
  intro l
  induction l with
  | nil => intro h; simp [followsDigits] at h
  | cons c rest ih =>
    intro h
    simp only [followsDigits] at h
    by_cases hd : c.isDigit = true
    · rw [if_pos hd] at h
      obtain ⟨ds, c2, l2, rfl, hds, hc2⟩ := ih h
      exact ⟨c :: ds, c2, l2, rfl, by
        intro d hdmem
        rcases List.mem_cons.mp hdmem with rfl | hdmem
        · exact hd
        · exact hds d hdmem, hc2⟩
    · rw [if_neg hd] at h
      rcases Bool.or_eq_true_iff.mp h with h | h
      · exact ⟨[], c, rest, rfl, by simp, Or.inl h⟩
      · exact ⟨[], c, rest, rfl, by simp, Or.inr (by
          have := eq_of_beq h; exact this)⟩

/-- Conversely, the scan succeeds on any digit run followed by an alphabetic
or underscore character. -/
lemma followsDigits_complete :
    ∀ (ds : List Char) (c : Char) (l2 : List Char),
      (∀ d ∈ ds, d.isDigit = true) → (c.isAlpha = true ∨ c = '_') →
      followsDigits (ds ++ c :: l2) = true := by
  intro ds
  induction ds with
  | nil =>
    intro c l2 _ hc
    simp only [List.nil_append, followsDigits]
    rw [if_neg (by simp [not_digit_of_ident c hc])]
    rcases hc with hc | rfl
    · simp [hc]
    · simp
  | cons d ds ih =>
    intro c l2 hds hc
    simp only [List.cons_append, followsDigits]
    rw [if_pos (hds d (by simp))]
    exact ih c l2 (fun x hx => hds x (by simp [hx])) hc

/-- Soundness of the template scan: a hit yields the claimed decomposition. -/
lemma hasAmbiguousCapture_sound :
    ∀ s, hasAmbiguousCapture s = true → AmbiguousCaptureSpec s := by
  intro s
  induction s with
  | nil => intro h; simp [hasAmbiguousCapture] at h
  | cons c rest ih =>
    intro h
    simp only [hasAmbiguousCapture, Bool.or_eq_true] at h
    rcases h with h | h
    · obtain ⟨hdol, hbad⟩ := Bool.and_eq_true_iff.mp h
      have hc : c = '$' := eq_of_beq hdol
      subst hc
      cases rest with
      | nil => simp [badAtDollar] at hbad
      | cons d rest2 =>
        simp only [badAtDollar] at hbad
        obtain ⟨hd, hfd⟩ := Bool.and_eq_true_iff.mp hbad
        obtain ⟨ds, c2, l2, rfl, hds, hc2⟩ := followsDigits_sound rest2 hfd
        refine ⟨[], d :: ds, c2, l2, by simp, by simp, ?_, hc2⟩
        intro x hx
        rcases List.mem_cons.mp hx with rfl | hx
        · exact hd
        · exact hds x hx
    · obtain ⟨l1, ds, c2, l2, rfl, hne, hds, hc2⟩ := ih h
      exact ⟨c :: l1, ds, c2, l2, rfl, hne, hds, hc2⟩

/-- Completeness of the template scan: any such decomposition is found. -/
lemma hasAmbiguousCapture_complete :
    ∀ (l1 ds : List Char) (c : Char) (l2 : List Char),
      ds ≠ [] → (∀ d ∈ ds, d.isDigit = true) → (c.isAlpha = true ∨ c = '_') →
      hasAmbiguousCapture (l1 ++ '$' :: (ds ++ c :: l2)) = true := by
  intro l1
  induction l1 with
  | nil =>
    intro ds c l2 hne hds hc
    cases ds with
    | nil => exact absurd rfl hne
    | cons d ds2 =>
      simp only [List.nil_append, hasAmbiguousCapture, List.cons_append,
        badAtDollar, Bool.or_eq_true]
      left
      refine Bool.and_eq_true_iff.mpr ⟨by simp, Bool.and_eq_true_iff.mpr ⟨hds d (by simp), ?_⟩⟩
      exact followsDigits_complete ds2 c l2 (fun x hx => hds x (by simp [hx])) hc
  | cons a l1 ih =>
    intro ds c l2 hne hds hc
    simp only [List.cons_append, hasAmbiguousCapture, Bool.or_eq_true]
    exact Or.inr (ih ds c l2 hne hds hc)

/-! ## Flag-parsing lemmas -/

/-- No flag character other than `w` can re-enable multi-line matching or
clear the dot-matches-new-line toggle once both are set. -/
lemma regexFlagStep_preserve (lf fs : List Char) (c : Char) (b : RegexBuild)
    (hw : c ≠ 'w') (hm : b.multiLine = false) (hd : b.dotMatchesNewLine = true) :
    (regexFlagStep lf fs b c).multiLine = false ∧
      (regexFlagStep lf fs b c).dotMatchesNewLine = true := by
  unfold regexFlagStep
  split
  · exact ⟨hm, hd⟩
  · exact ⟨hm, hd⟩
  · exact ⟨rfl, hd⟩
  · refine ⟨?_, rfl⟩
    show (if 'm' ∈ fs then b else { b with multiLine := false }).multiLine = false
    split
    · exact hm
    · rfl
  · exact absurd rfl hw
  · exact ⟨hm, hd⟩

/-- Folding any `w`-free flag suffix preserves disabled multi-line and
enabled dot-matches-new-line. -/
lemma regexFlags_preserve (lf fs : List Char) :
    ∀ (l : List Char) (b : RegexBuild), 'w' ∉ l → b.multiLine = false →
      b.dotMatchesNewLine = true →
      (l.foldl (regexFlagStep lf fs) b).multiLine = false ∧
        (l.foldl (regexFlagStep lf fs) b).dotMatchesNewLine = true := by
  intro l
  induction l with
  | nil => intro b _ hm hd; exact ⟨hm, hd⟩
  | cons c l ih =>
    intro b hw hm hd
    have hcw : c ≠ 'w' := fun hc => hw (by simp [hc])
    have step := regexFlagStep_preserve lf fs c b hcw hm hd
    simp only [List.foldl_cons]
    exact ih (regexFlagStep lf fs b c) (fun hmem => hw (by simp [hmem])) step.1 step.2

/-- Processing `s` when the flags string does not contain `m` disables
multi-line and enables dot-matches-new-line. -/
lemma regexFlagStep_s (lf fs : List Char) (b : RegexBuild) (hm : 'm' ∉ fs) :
    regexFlagStep lf fs b 's'
      = { b with multiLine := false, dotMatchesNewLine := true } := by
  simp [regexFlagStep, hm]

/-- The `w` flag discards the current builder entirely. -/
lemma regexFlagStep_w (lf fs : List Char) (b : RegexBuild) :
    regexFlagStep lf fs b 'w' = regexWFresh lf := rfl

/-- The `w` flag discards the current `fancy` builder entirely. -/
lemma fancyFlagStep_w (lf : List Char) (b : FancyBuild) :
    fancyFlagStep lf b 'w' = fancyWFresh lf := rfl

/-! ## Claims -/

/-- C1: For either engine constructed with pattern `"a"`, replacement `"b"`,
literal=false, and ceiling 0 (unlimited), replace on input `"aaa"`
(only_matched=false, colorize=false) returns `"bbb"`; with the same inputs
but ceiling 1 it returns `"baa"` — only the first, leftmost match is
replaced and the rest of the input is copied unchanged. -/
theorem c1_basic_replace :
    regexApplyPlain "a".toList "b".toList false 0 "aaa".toList false false
        = Except.ok (some "bbb".toList)
      ∧ regexApplyPlain "a".toList "b".toList false 1 "aaa".toList false false
        = Except.ok (some "baa".toList)
      ∧ fancyApplyPlain "a".toList "b".toList false 0 "aaa".toList false false
        = Except.ok (some "bbb".toList)
      ∧ fancyApplyPlain "a".toList "b".toList false 1 "aaa".toList false false
        = Except.ok (some "baa".toList) := by
  refine ⟨by decide, by decide, by decide, by decide⟩

/-- C5: With literal=true, construction escapes the pattern so it matches
only its verbatim text, and the replacement is appended as-is for each
match — no capture-group interpolation and no escape-sequence unescaping —
so pattern `"((special[]))"`, replacement `"x"`, input `"((special[]))y"`
yields `"xy"` (in both engines), a replacement `"\n"` (backslash-n) stays
the two characters backslash-n, and a replacement `"$1"` is emitted
literally. -/
theorem c5_literal_mode :
    (RegexReplacer.new "((special[]))".toList "x".toList true none 0).map
        (fun r => r.regex.pattern)
        = Except.ok (regexEscape "((special[]))".toList)
      ∧ regexApplyPlain "((special[]))".toList "x".toList true 0
          "((special[]))y".toList false false = Except.ok (some "xy".toList)
      ∧ fancyApplyPlain "((special[]))".toList "x".toList true 0
          "((special[]))y".toList false false = Except.ok (some "xy".toList)
      ∧ regexApplyPlain "a".toList "\\n".toList true 0 "a".toList false false
        = Except.ok (some "\\n".toList)
      ∧ regexApplyPlain "a".toList "$1".toList true 0 "a".toList false false
        = Except.ok (some "$1".toList)
      ∧ (RegexReplacer.new "a".toList "\\n".toList true none 0).map
          (fun r => r.replace_with) = Except.ok "\\n".toList := by
  refine ⟨by decide, by decide, by decide, by decide, by decide, by decide⟩

/-- C7 counterexample: the claim says any flags string containing `s` makes
`.` match line terminators and disables multi-line, regardless of which
other flag characters co-occur.  It fails at flags `"sm"` — the `s` arm
consults `flags.contains('m')`, so the (otherwise unrecognized) character
`m` suppresses the multi-line disable — and at flags `"sw"`, where the
later `w` rebuilds the engine and drops dot-matches-new-line. -/
theorem c7_counterexample :
    (regexBuildFlags "a".toList (some "sm".toList)).multiLine = true
      ∧ (regexBuildFlags "a".toList (some "sw".toList)).dotMatchesNewLine
          = false := by
  refine ⟨by decide, by decide⟩

/-- C7 (amended): for the Constrained engine, a flags string containing `s`
sets dot-matches-new-line and disables multi-line, provided the flags
string does not contain the character `m` anywhere and no `w` occurs after
the `s`; in particular `s` alone always disables multi-line. -/
theorem c7_s_disables_multiline (lf l1 l2 : List Char)
    (hm : 'm' ∉ l1 ++ 's' :: l2) (hw : 'w' ∉ l2) :
    (regexBuildFlags lf (some (l1 ++ 's' :: l2))).multiLine = false
      ∧ (regexBuildFlags lf (some (l1 ++ 's' :: l2))).dotMatchesNewLine
          = true := by
  unfold regexBuildFlags
  simp only [List.foldl_append, List.foldl_cons]
  rw [regexFlagStep_s lf (l1 ++ 's' :: l2) _ hm]
  exact regexFlags_preserve lf (l1 ++ 's' :: l2) l2 _ hw rfl rfl

/-- Witness for C7 (amended): flags `"s"` alone. -/
theorem c7_s_disables_multiline_witness :
    ('m' ∉ [] ++ 's' :: ([] : List Char)) ∧ ('w' ∉ ([] : List Char)) ∧
      (regexBuildFlags "a".toList (some ([] ++ 's' :: []))).multiLine = false
        ∧ (regexBuildFlags "a".toList
            (some ([] ++ 's' :: []))).dotMatchesNewLine = true :=
  ⟨by decide, by decide,
    c7_s_disables_multiline "a".toList [] [] (by decide) (by decide)⟩

/-- C10: in both engines, the `w` flag replaces the whole regex builder
with a fresh one wrapping the pattern in `\b…\b`, discarding every flag
applied earlier in the flags string and, for the Constrained engine, the
multi-line default: flags `"iw"` yield a case-sensitive engine despite
`i`, flags `"w"` alone yield a Constrained engine with multi-line disabled,
and only flag characters occurring after `w` take effect. -/
theorem c10_w_resets_builder :
    (∀ (lf fs : List Char) (b : RegexBuild) (l1 l2 : List Char),
        (l1 ++ 'w' :: l2).foldl (regexFlagStep lf fs) b
          = l2.foldl (regexFlagStep lf fs) (regexWFresh lf))
      ∧ (∀ (lf : List Char) (b : FancyBuild) (l1 l2 : List Char),
          (l1 ++ 'w' :: l2).foldl (fancyFlagStep lf) b
            = l2.foldl (fancyFlagStep lf) (fancyWFresh lf))
      ∧ (∀ lf : List Char,
          (regexWFresh lf).pattern = wrapWord lf
            ∧ (regexWFresh lf).caseInsensitive = false
            ∧ (regexWFresh lf).multiLine = false
            ∧ (regexWFresh lf).dotMatchesNewLine = false
            ∧ (fancyWFresh lf).pattern = wrapWord lf
            ∧ (fancyWFresh lf).caseInsensitive = false)
      ∧ (regexBuildFlags "p".toList (some "iw".toList)).caseInsensitive = false
      ∧ (regexBuildFlags "p".toList (some "w".toList)).multiLine = false
      ∧ (fancyBuildFlags "p".toList (some "iw".toList)).caseInsensitive
          = false := by
  refine ⟨?_, ?_, ?_, by decide, by decide, by decide⟩
  · intro lf fs b l1 l2
    rw [List.foldl_append, List.foldl_cons, regexFlagStep_w]
  · intro lf b l1 l2
    rw [List.foldl_append, List.foldl_cons, fancyFlagStep_w]
  · intro lf
    exact ⟨rfl, rfl, rfl, rfl, rfl, rfl⟩

/-- The output the unlimited loop builds: one chunk per match, every match
visited, threading the previous match end; paired with `lastEndFrom`, the
end of the final match (the start of the tail copy). -/
def buildAll (h : List Char) (uc : Bool) (rep : Nat × Nat → List Char)
    (om : Bool) : List (Nat × Nat) → Nat → List Char
  | [], _ => []
  | m :: rest, lastM => chunkOf h uc om rep lastM m ++ buildAll h uc rep om rest m.2

/-- The end position of the last match, or the running position if there is
none. -/
def lastEndFrom (lastM : Nat) : List (Nat × Nat) → Nat
  | [] => lastM
  | m :: rest => lastEndFrom m.2 rest

/-- With ceiling 0 the loop never breaks: it visits every match. -/
lemma regexLoop_unlimited (h : List Char) (uc : Bool)
    (rep : Nat × Nat → List Char) (om : Bool) :
    ∀ (rest : List (Nat × Nat)) (i lastM : Nat),
      regexLoop 0 h uc rep om rest i lastM
        = (buildAll h uc rep om rest lastM, lastEndFrom lastM rest) := by
  intro rest
  induction rest with
  | nil => intro i lastM; rfl
  | cons m rest ih =>
    intro i lastM
    simp only [regexLoop, buildAll, lastEndFrom]
    rw [if_neg (by omega), ih (i + 1) m.2]

/-- With ceiling 0 the `fancy` loop on an error-free iterator visits every
match. -/
lemma fancyLoop_unlimited (h : List Char) (uc : Bool)
    (rep : Nat × Nat → List Char) (om : Bool) :
    ∀ (rest : List (Nat × Nat)) (i lastM : Nat),
      fancyLoop 0 h uc rep om (rest.map some) i lastM
        = some (buildAll h uc rep om rest lastM, lastEndFrom lastM rest) := by
  intro rest
  induction rest with
  | nil => intro i lastM; rfl
  | cons m rest ih =>
    intro i lastM
    simp only [List.map_cons, fancyLoop, buildAll, lastEndFrom]
    rw [if_neg (by omega), ih (i + 1) m.2]
    rfl

/-- C2: ceiling 0 replaces every match; for N > 0, matches are iterated
left-to-right and iteration stops after N matches have been replaced: the
bounded run coincides, in both engines, with the unlimited run restricted
to the first N matches, the remainder of the buffer being left for the
tail copy. -/
theorem c2_ceiling (regexMs : List (Nat × Nat))
    (fancyMs : List (Option (Nat × Nat))) (fancyBase : List (Nat × Nat))
    (limit : Nat) (h : List Char)
    (uc : Bool) (rep : Nat × Nat → List Char) (om : Bool) :
    RegexReplacer.replacen regexMs limit h uc rep om
        = RegexReplacer.replacen
            (if limit = 0 then regexMs else regexMs.take limit) 0 h uc rep om
      ∧ FancyReplacer.replacen fancyMs limit h uc rep om
          = FancyReplacer.replacen
              (if limit = 0 then fancyMs else fancyMs.take limit) 0 h uc rep
              om
      ∧ (regexMs = [] ∨ RegexReplacer.replacen regexMs 0 h uc rep om
          = some (buildAll h uc rep om regexMs 0
              ++ if om then [] else h.drop (lastEndFrom 0 regexMs)))
      ∧ (fancyBase = []
          ∨ FancyReplacer.replacen (fancyBase.map some) 0 h uc rep om
            = some (buildAll h uc rep om fancyBase 0
                ++ if om then [] else h.drop (lastEndFrom 0 fancyBase))) := by
  refine ⟨?_, ?_, ?_, ?_⟩
  case refine_3 =>
    cases regexMs with
    | nil => exact Or.inl rfl
    | cons m ms =>
      refine Or.inr ?_
      simp only [RegexReplacer.replacen]
      rw [regexLoop_unlimited h uc rep om (m :: ms) 0 0]
  case refine_4 =>
    cases fancyBase with
    | nil => exact Or.inl rfl
    | cons m ms =>
      refine Or.inr ?_
      simp only [List.map_cons, FancyReplacer.replacen]
      have := fancyLoop_unlimited h uc rep om (m :: ms) 0 0
      simp only [List.map_cons] at this
      rw [this]
      rfl
  · rcases Nat.eq_zero_or_pos limit with rfl | hpos
    · simp
    · rw [if_neg (by omega)]
      cases regexMs with
      | nil => simp [RegexReplacer.replacen]
      | cons m ms =>
        obtain ⟨k, rfl⟩ : ∃ j, limit = j + 1 := ⟨limit - 1, by omega⟩
        simp only [List.take_succ_cons, RegexReplacer.replacen]
        rw [show k + 1 = 0 + (k + 1) by omega,
          regexLoop_take h uc rep om (m :: ms) (k + 1) 0 0 (by omega)]
        simp
  · rcases Nat.eq_zero_or_pos limit with rfl | hpos
    · simp
    · rw [if_neg (by omega)]
      cases fancyMs with
      | nil => simp [FancyReplacer.replacen]
      | cons o ms =>
        obtain ⟨k, rfl⟩ : ∃ j, limit = j + 1 := ⟨limit - 1, by omega⟩
        simp only [List.take_succ_cons, FancyReplacer.replacen]
        rw [show k + 1 = 0 + (k + 1) by omega,
          fancyLoop_take h uc rep om (o :: ms) (k + 1) 0 0 (by omega)]
        simp [List.take_succ_cons]

/-- C3: replace returns None exactly when the iterator yields zero matches
(for the Expressive engine, on an error-free iteration); when at least one
match exists the Constrained engine returns Some new buffer even when that
buffer is byte-identical to the input (pattern `"a"`, replacement `"a"`,
input `"a"` returns Some `"a"`), so "no change" is distinct from "matched,
identical output". -/
theorem c3_none_iff_no_match (regexMs : List (Nat × Nat))
    (fancyMs : List (Nat × Nat)) (limit : Nat) (h : List Char) (uc : Bool)
    (rep : Nat × Nat → List Char) (om : Bool) :
    (RegexReplacer.replacen regexMs limit h uc rep om = none ↔ regexMs = [])
      ∧ (FancyReplacer.replacen (fancyMs.map some) limit h uc rep om = none
          ↔ fancyMs = [])
      ∧ regexApplyPlain "a".toList "a".toList false 0 "a".toList false false
          = Except.ok (some "a".toList) := by
  refine ⟨?_, ?_, by decide⟩
  · cases regexMs with
    | nil => simp [RegexReplacer.replacen]
    | cons m ms => simp [RegexReplacer.replacen]
  · cases fancyMs with
    | nil => simp [FancyReplacer.replacen]
    | cons m ms =>
      have hs := fancyLoop_some limit h uc rep om (m :: ms) 0 0
      simp only [List.map_cons] at hs
      simp only [List.map_cons, FancyReplacer.replacen]
      refine iff_of_false ?_ (by simp)
      intro hnone
      have hl : fancyLoop limit h uc rep om (some m :: ms.map some) 0 0
          = none := by
        by_contra hne
        obtain ⟨r, hr⟩ := Option.ne_none_iff_exists'.mp hne
        rw [hr] at hnone
        simp at hnone
      rw [hl] at hs
      simp at hs

/-- C4: when only_matched is true, for every buffer with at least one match
the returned buffer is exactly the concatenation of the expanded
replacement texts of the replaced matches (the first `N` when the ceiling
is `N > 0`, all of them when it is 0), in left-to-right order, with no
separators, no unmatched spans, no tail, and no color markers even when
colorize is true — in both engines; e.g. pattern `"a"`, replacement `"b"`,
input `"aaa"` with colorize on yields exactly `"bbb"`. -/
theorem c4_only_matched (m : Nat × Nat) (ms : List (Nat × Nat)) (limit : Nat)
    (h : List Char) (uc : Bool) (rep : Nat × Nat → List Char) :
    RegexReplacer.replacen (m :: ms) limit h uc rep true
        = some ((((if limit = 0 then m :: ms else (m :: ms).take limit)).map
            rep).flatten)
      ∧ FancyReplacer.replacen ((m :: ms).map some) limit h uc rep true
          = some ((((if limit = 0 then m :: ms
              else (m :: ms).take limit)).map rep).flatten)
      ∧ regexApplyPlain "a".toList "b".toList false 0 "aaa".toList true true
          = Except.ok (some "bbb".toList)
      ∧ fancyApplyPlain "a".toList "b".toList false 0 "aaa".toList true true
          = Except.ok (some "bbb".toList) := by
  refine ⟨?_, ?_, by decide, by decide⟩
  · rcases Nat.eq_zero_or_pos limit with rfl | hpos
    · simp only [if_pos rfl, RegexReplacer.replacen]
      rw [regexLoop_only h uc rep (m :: ms) 0 0]
      simp
    · rw [if_neg (by omega)]
      obtain ⟨k, rfl⟩ : ∃ j, limit = j + 1 := ⟨limit - 1, by omega⟩
      simp only [RegexReplacer.replacen]
      rw [show k + 1 = 0 + (k + 1) by omega,
        regexLoop_take h uc rep true (m :: ms) (k + 1) 0 0 (by omega),
        List.take_succ_cons, regexLoop_only h uc rep (m :: List.take k ms) 0 0]
      simp
  · rcases Nat.eq_zero_or_pos limit with rfl | hpos
    · simp only [if_pos rfl, List.map_cons, FancyReplacer.replacen]
      obtain ⟨e, he⟩ := fancyLoop_only h uc rep (m :: ms) 0 0
      simp only [List.map_cons] at he
      rw [he]
      simp
    · rw [if_neg (by omega)]
      obtain ⟨k, rfl⟩ : ∃ j, limit = j + 1 := ⟨limit - 1, by omega⟩
      simp only [List.map_cons, FancyReplacer.replacen]
      rw [show k + 1 = 0 + (k + 1) by omega,
        fancyLoop_take h uc rep true (some m :: ms.map some) (k + 1) 0 0
          (by omega)]
      have : (some m :: ms.map some).take (k + 1)
          = (m :: ms.take k).map some := by
        simp [List.take_succ_cons, List.map_take]
      rw [this]
      obtain ⟨e, he⟩ := fancyLoop_only h uc rep (m :: ms.take k) 0 0
      rw [he]
      simp [List.take_succ_cons]

/-- C8: for the Expressive engine, an internal matching failure during
iteration (an `Err` item reached before the ceiling cuts iteration off)
aborts the whole apply call, which then yields no output; the Constrained
engine's capture mechanism can never fail once the pattern is compiled —
with at least one match its replace always produces a buffer. -/
theorem c8_fancy_error_aborts (pre post : List (Option (Nat × Nat)))
    (limit : Nat) (h : List Char) (uc : Bool) (rep : Nat × Nat → List Char)
    (om : Bool) (m : Nat × Nat) (ms : List (Nat × Nat))
    (hcut : limit = 0 ∨ pre.length + 1 ≤ limit) :
    FancyReplacer.replacen (pre ++ none :: post) limit h uc rep om = none
      ∧ (RegexReplacer.replacen (m :: ms) limit h uc rep om).isSome
          = true := by
  constructor
  · have hloop := fancyLoop_err limit h uc rep om post pre 0 0 (by
      rcases hcut with h0 | h0
      · exact Or.inl h0
      · exact Or.inr (by omega))
    cases pre with
    | nil =>
      simp only [List.nil_append] at hloop ⊢
      simp only [FancyReplacer.replacen, hloop]
      rfl
    | cons o pre2 =>
      simp only [List.cons_append] at hloop ⊢
      simp only [FancyReplacer.replacen, hloop]
      rfl
  · simp [RegexReplacer.replacen]

/-- Witness for C8: an error as the only item with an unlimited ceiling. -/
theorem c8_fancy_error_aborts_witness :
    ((0 : Nat) = 0 ∨ ([] : List (Option (Nat × Nat))).length + 1 ≤ 0)
      ∧ FancyReplacer.replacen ([] ++ none :: []) 0 [] false (fun _ => [])
          false = none
      ∧ (RegexReplacer.replacen [(0, 1)] 0 [] false (fun _ => [])
          false).isSome = true :=
  ⟨Or.inl rfl,
    c8_fancy_error_aborts [] [] 0 [] false (fun _ => []) false (0, 1) []
      (Or.inl rfl)⟩

/-- C6: construction with literal=false fails with InvalidCapture exactly
when the replacement template contains `$` followed by one or more digits
then immediately an alphabetic or underscore character; every other `$`
usage is accepted — `$1a` is rejected while `$1!` and the brace form
`$`, `{1}`, `a` are accepted — and the validation outcome is determined by
the template alone, independent of the pattern and flags. -/
theorem c6_capture_validation :
    (∀ s, hasAmbiguousCapture s = true ↔ AmbiguousCaptureSpec s)
      ∧ validate_replace "$1a".toList = Except.error ()
      ∧ validate_replace "$1!".toList = Except.ok ()
      ∧ validate_replace "$\x7b1\x7da".toList = Except.ok ()
      ∧ (∀ (lf rw : List Char) (fl : Option (List Char)) (n : Nat),
          RegexReplacer.new lf rw false fl n
              = Except.error SdError.invalidCapture
            ↔ hasAmbiguousCapture rw = true)
      ∧ (∀ (lf rw : List Char) (fl : Option (List Char)) (n : Nat),
          FancyReplacer.new lf rw false fl n
              = Except.error SdError.invalidCapture
            ↔ hasAmbiguousCapture rw = true) := by
  refine ⟨?_, by decide, by decide, by decide, ?_, ?_⟩
  · intro s
    constructor
    · exact hasAmbiguousCapture_sound s
    · rintro ⟨l1, ds, c, l2, rfl, hne, hds, hc⟩
      exact hasAmbiguousCapture_complete l1 ds c l2 hne hds hc
  · intro lf rw fl n
    simp only [RegexReplacer.new, if_neg Bool.false_ne_true]
    split
    · simp_all
    · simp_all
  · intro lf rw fl n
    simp only [FancyReplacer.new, if_neg Bool.false_ne_true]
    split
    · simp_all
    · simp_all

/-- C9: for every file F (with original data) and content B, write_with_temp
writes B to F through the temp-file sequence — create a temp file in place,
size it to B's length, best-effort copy F's permission bits, write B
through the mapped view (skipped when B is empty), and atomically rename
the temp file over F — so that reading F afterwards yields bytes identical
to B, F's permission bits are unchanged from before the write, and at
every intermediate state F holds either its complete original data or its
complete new data: it is never observed partially written. -/
theorem c9_write_with_temp (fs : FsState) (path tmpPath : String)
    (tmpPerms : Nat) (data : List Nat) (orig : FileData)
    (hf : fs path = some orig) (hne : tmpPath ≠ path) :
    ∃ states, writeWithTempStates fs path tmpPath tmpPerms data = some states
      ∧ write_with_temp fs path tmpPath tmpPerms data
          = some (states.getLastD fs)
      ∧ (states.getLastD fs) path
          = some { content := data, perms := orig.perms }
      ∧ ∀ s ∈ states, s path = some orig
          ∨ s path = some { content := data, perms := orig.perms } := by
  have hpne : path ≠ tmpPath := fun hp => hne hp.symm
  unfold writeWithTempStates
  rw [hf]
  simp only []
  refine ⟨_, rfl, by unfold write_with_temp writeWithTempStates; rw [hf]; rfl, ?_, ?_⟩
  · show fsRename _ tmpPath path path = _
    unfold fsRename
    rw [if_neg hpne, if_pos rfl]
    by_cases hd : data.isEmpty
    · rw [if_pos hd]
      show (fsSet _ tmpPath _) tmpPath = _
      unfold fsSet
      rw [if_pos rfl]
      have : data = [] := List.isEmpty_iff.mp hd
      subst this
      rfl
    · rw [if_neg hd]
      show (fsSet _ tmpPath _) tmpPath = _
      unfold fsSet
      rw [if_pos rfl]
  · intro s hs
    have hset : ∀ (g : FsState) (d : FileData), (fsSet g tmpPath d) path = g path := by
      intro g d
      unfold fsSet
      rw [if_neg hpne]
    simp only [List.mem_cons, List.not_mem_nil, or_false] at hs
    rcases hs with rfl | rfl | rfl | rfl | rfl
    · exact Or.inl (by rw [hset, hf])
    · exact Or.inl (by rw [hset, hset, hf])
    · exact Or.inl (by rw [hset, hset, hset, hf])
    · refine Or.inl ?_
      by_cases hd : data.isEmpty
      · rw [if_pos hd, hset, hset, hset, hf]
      · rw [if_neg hd, hset, hset, hset, hset, hf]
    · refine Or.inr ?_
      show fsRename _ tmpPath path path = _
      unfold fsRename
      rw [if_neg hpne, if_pos rfl]
      by_cases hd : data.isEmpty
      · rw [if_pos hd]
        show (fsSet _ tmpPath _) tmpPath = _
        unfold fsSet
        rw [if_pos rfl]
        have : data = [] := List.isEmpty_iff.mp hd
        subst this
        rfl
      · rw [if_neg hd]
        show (fsSet _ tmpPath _) tmpPath = _
        unfold fsSet
        rw [if_pos rfl]

/-- Witness for C9: a one-file system, new content `[3]` over old `[1, 2]`
with permission bits `6`. -/
theorem c9_write_with_temp_witness :
    ((fun q => if q = "f" then some { content := [1, 2], perms := 6 } else none :
        FsState) "f" = some { content := [1, 2], perms := 6 })
      ∧ ("t" : String) ≠ "f"
      ∧ ∃ states,
          writeWithTempStates
              (fun q => if q = "f" then some { content := [1, 2], perms := 6 }
                else none) "f" "t" 0 [3] = some states
            ∧ write_with_temp
                (fun q => if q = "f" then some { content := [1, 2], perms := 6 }
                  else none) "f" "t" 0 [3] = some (states.getLastD
                  (fun q => if q = "f" then some { content := [1, 2], perms := 6 }
                    else none))
            ∧ (states.getLastD
                (fun q => if q = "f" then some { content := [1, 2], perms := 6 }
                  else none)) "f" = some { content := [3], perms := 6 }
            ∧ ∀ s ∈ states, s "f" = some { content := [1, 2], perms := 6 }
                ∨ s "f" = some { content := [3], perms := 6 } :=
  ⟨rfl, by decide,
    c9_write_with_temp
      (fun q => if q = "f" then some { content := [1, 2], perms := 6 } else none)
      "f" "t" 0 [3] { content := [1, 2], perms := 6 } rfl (by decide)⟩
